import Mathlib

/-!
Verification of the PII-redaction core of `lambda_function.py`.

The program's redaction core is `redact_pii(text, pii_entities)`:
1. a structural line pass: `re.sub(r'.*\*+\d+', '[REDACTED LINE]', text)`
   (with `re.MULTILINE`, which is inert here since the pattern has no
   `^`/`$`; `.` does not match `'\n'`, so every match lies within one line);
2. an entity pass: for each entity, sorted by `BeginOffset` descending
   (Python's `sorted` is stable, so ties keep list order), replace
   `text[begin:end]` by `"[REDACTED <Type>]"` via clamping slices.

The upstream detector `detect_pii_with_comprehend` keeps exactly the
entities whose `Type` differs from `'IP_ADDRESS'`.

Texts are modelled as `List Char` (Python strings are sequences of Unicode
scalar values).  Python's `\d` is modelled by `Char.isDigit`; Python's `\d`
also matches non-ASCII decimal digits, and no property proved below depends
on which characters count as digits beyond those of the fixed placeholder
`"[REDACTED LINE]"` (which contains neither `'*'` nor a digit preceded by
`'*'` under either reading).
-/

/-- An element of the `Entities` list returned by Comprehend: fields
`Type`, `BeginOffset`, `EndOffset` (offsets are non-negative integers). -/
structure Entity where
  type : List Char
  beginOffset : Nat
  endOffset : Nat
deriving DecidableEq

/-- The fixed replacement for the structural line pass. -/
def REDACTED_LINE : List Char := "[REDACTED LINE]".toList

/-- The interpolation `f"[REDACTED {entity['Type']}]"`. -/
def placeholderFor (t : List Char) : List Char :=
  "[REDACTED ".toList ++ t ++ [']']

/-- Split a text at `'\n'` into its maximal lines (as Python line
structure: `k` newlines delimit `k+1` lines, possibly empty). -/
def splitLines : List Char → List (List Char)
  | [] => [[]]
  | c :: cs =>
    if c = '\n' then [] :: splitLines cs
    else
      match splitLines cs with
      | [] => [[c]]
      | l :: ls => (c :: l) :: ls

/-- Join lines back with `'\n'`; left inverse of `splitLines`. -/
def joinLines : List (List Char) → List Char
  | [] => []
  | [l] => l
  | l :: ls => l ++ '\n' :: joinLines ls

/-- Whether a line contains a match of `\*+\d+`: some `'*'` immediately
followed by a digit. -/
def hasRun : List Char → Bool
  | c :: d :: rest => (c = '*' && d.isDigit) || hasRun (d :: rest)
  | _ => false

/-- Drop the maximal leading digit run (the greedy `\d+`). -/
def dropDigits : List Char → List Char
  | [] => []
  | c :: cs => if c.isDigit then dropDigits cs else c :: cs

/-- If the line matches `.*\*+\d+`, the part of the line left after the
match, i.e. the suffix after the digits following the last `'*'`-digit
boundary (greedy `.*` backtracks to the rightmost `\*+\d+`); otherwise
`none`. -/
def afterLastRun : List Char → Option (List Char)
  | [] => none
  | c :: cs =>
    match afterLastRun cs with
    | some r => some r
    | none =>
      if c = '*' then
        match cs with
        | [] => none
        | d :: _ => if d.isDigit then some (dropDigits cs) else none
      else none

/-- The effect of `re.sub(r'.*\*+\d+', '[REDACTED LINE]', ·)` on one line:
at most one match per line, starting at the line's beginning and ending
after the digits of the last mask+digit run. -/
def lineRedact (l : List Char) : List Char :=
  match afterLastRun l with
  | none => l
  | some r => REDACTED_LINE ++ r

/-- The structural line pass of `redact_pii` (source line 38). -/
def redact_lines (t : List Char) : List Char :=
  joinLines ((splitLines t).map lineRedact)

/-- Insert into a begin-descending list, after every element with a
strictly larger `beginOffset` and before every element with a smaller or
equal one — the insertion step of a stable descending sort. -/
def insertDesc (x : Entity) : List Entity → List Entity
  | [] => [x]
  | y :: ys =>
    if x.beginOffset < y.beginOffset then y :: insertDesc x ys
    else x :: y :: ys

/-- The call `sorted(pii_entities, key=lambda x: x['BeginOffset'],
reverse=True)` of source line 42: a stable sort, descending on
`BeginOffset`, ties keeping list order. -/
def sortDesc : List Entity → List Entity
  | [] => []
  | x :: xs => insertDesc x (sortDesc xs)

/-- One loop iteration of the entity pass (source lines 43–46):
`redacted_text[:start] + f"[REDACTED {Type}]" + redacted_text[end:]`.
Python slices with non-negative indices clamp, exactly as `take`/`drop`. -/
def applySpan (t : List Char) (e : Entity) : List Char :=
  t.take e.beginOffset ++ placeholderFor e.type ++ t.drop e.endOffset

/-- The entity pass of `redact_pii` (source lines 41–46), including the
`if pii_entities:` truthiness guard. -/
def redact_entities (t : List Char) (es : List Entity) : List Char :=
  if es.isEmpty then t
  else (sortDesc es).foldl applySpan t

/-- `redact_pii` (source lines 33–47): structural line pass, then entity
pass on the rewritten text. -/
def redact_pii (t : List Char) (es : List Entity) : List Char :=
  redact_entities (redact_lines t) es

/-- The kind excluded by `detect_pii_with_comprehend`. -/
def ipKind : List Char := "IP_ADDRESS".toList

/-- The filter of `detect_pii_with_comprehend` (source lines 28–29):
`[entity for entity in response['Entities'] if entity['Type'] != 'IP_ADDRESS']`. -/
def detect_pii_filter : List Entity → List Entity
  | [] => []
  | e :: es =>
    if e.type = ipKind then detect_pii_filter es
    else e :: detect_pii_filter es

/-- Non-overlap of two half-open spans. -/
def SpanDisjoint (a b : Entity) : Prop :=
  a.endOffset ≤ b.beginOffset ∨ b.endOffset ≤ a.beginOffset

instance (a b : Entity) : Decidable (SpanDisjoint a b) :=
  inferInstanceAs (Decidable (_ ∨ _))

/-- A descending chain of valid non-empty spans below a bound: the head is
non-empty and ends within the bound, and the rest lies at or before the
head begin. -/
def SpanChain : Nat → List Entity → Prop
  | _, [] => True
  | bound, e :: es =>
    e.beginOffset < e.endOffset ∧ e.endOffset ≤ bound ∧
      SpanChain e.beginOffset es

/-- Rendering of the redaction guarantee of the spec: over a descending
chain of spans, each span contributes exactly one placeholder where its
range was, and the text outside the spans is carried over verbatim. -/
def renderRev (t : List Char) : List Entity → List Char
  | [] => t
  | e :: es =>
    renderRev (t.take e.beginOffset) es ++ placeholderFor e.type ++
      t.drop e.endOffset

/-- Modelled from the words of the spec, for comparison in C5: insertion
into a list ordered by begin descending with ties broken by end
descending. -/
def insertSpecOrder (x : Entity) : List Entity → List Entity
  | [] => [x]
  | y :: ys =>
    if x.beginOffset < y.beginOffset ∨
        (x.beginOffset = y.beginOffset ∧ x.endOffset < y.endOffset) then
      y :: insertSpecOrder x ys
    else x :: y :: ys

/-- Modelled from the words of the spec, for comparison in C5: sort by
begin descending, ties on equal begin broken by end descending. -/
def sortSpecOrder : List Entity → List Entity
  | [] => []
  | x :: xs => insertSpecOrder x (sortSpecOrder xs)

/-- Strict descent on begin offsets. -/
def SGtB (a b : Entity) : Prop := b.beginOffset < a.beginOffset

instance : IsAntisymm Entity SGtB :=
  ⟨fun _ _ h h2 => absurd (Nat.lt_trans h h2) (Nat.lt_irrefl _)⟩

/-! ### Line structure lemmas -/

theorem splitLines_ne_nil (t : List Char) : splitLines t ≠ [] := by
  cases t with
  | nil => simp [splitLines]
  | cons c cs =>
    simp only [splitLines]
    split
    · simp
    · cases h : splitLines cs <;> simp

theorem splitLines_cons_newline (cs : List Char) :
    splitLines ('\n' :: cs) = [] :: splitLines cs := by
  simp [splitLines]

theorem splitLines_cons_of_ne (c : Char) (cs : List Char) (l : List Char)
    (ls : List (List Char)) (h : ¬ c = '\n') (hs : splitLines cs = l :: ls) :
    splitLines (c :: cs) = (c :: l) :: ls := by
  simp [splitLines, h, hs]

theorem joinLines_cons_cons (a b : List Char) (ls : List (List Char)) :
    joinLines (a :: b :: ls) = a ++ '\n' :: joinLines (b :: ls) := rfl

theorem joinLines_splitLines (t : List Char) : joinLines (splitLines t) = t := by
  induction t with
  | nil => rfl
  | cons c cs ih =>
    by_cases h : c = '\n'
    · subst h
      rw [splitLines_cons_newline]
      cases hs : splitLines cs with
      | nil => exact absurd hs (splitLines_ne_nil cs)
      | cons l ls =>
        rw [hs] at ih
        rw [joinLines_cons_cons, ← ih]
        simp
    · cases hs : splitLines cs with
      | nil => exact absurd hs (splitLines_ne_nil cs)
      | cons l ls =>
        rw [splitLines_cons_of_ne c cs l ls h hs]
        rw [hs] at ih
        cases ls with
        | nil =>
          simp only [joinLines] at ih ⊢
          rw [ih]
        | cons l2 ls2 =>
          rw [joinLines_cons_cons] at ih ⊢
          simp only [List.cons_append, ih]

theorem newline_not_mem_splitLines (t : List Char) :
    ∀ l ∈ splitLines t, '\n' ∉ l := by
  induction t with
  | nil => simp [splitLines]
  | cons c cs ih =>
    by_cases h : c = '\n'
    · subst h
      rw [splitLines_cons_newline]
      intro l hl
      rcases List.mem_cons.mp hl with rfl | hl
      · simp
      · exact ih l hl
    · cases hs : splitLines cs with
      | nil => exact absurd hs (splitLines_ne_nil cs)
      | cons l0 ls =>
        rw [splitLines_cons_of_ne c cs l0 ls h hs]
        intro l hl
        rcases List.mem_cons.mp hl with rfl | hl
        · intro hmem
          rcases List.mem_cons.mp hmem with rfl | hmem
          · exact h rfl
          · exact ih l0 (hs ▸ List.mem_cons_self l0 ls) hmem
        · exact ih l (hs ▸ List.mem_cons_of_mem l0 hl)

theorem splitLines_of_no_newline (l : List Char) (h : '\n' ∉ l) :
    splitLines l = [l] := by
  induction l with
  | nil => rfl
  | cons c cs ih =>
    have hc : ¬ c = '\n' := fun hc => h (hc ▸ List.mem_cons_self c cs)
    have hcs : '\n' ∉ cs := fun hm => h (List.mem_cons_of_mem c hm)
    exact splitLines_cons_of_ne c cs cs [] hc (ih hcs)

theorem splitLines_append_newline (a b : List Char) (h : '\n' ∉ a) :
    splitLines (a ++ '\n' :: b) = a :: splitLines b := by
  induction a with
  | nil => exact splitLines_cons_newline b
  | cons c cs ih =>
    have hc : ¬ c = '\n' := fun hc => h (hc ▸ List.mem_cons_self c cs)
    have hcs : '\n' ∉ cs := fun hm => h (List.mem_cons_of_mem c hm)
    rw [List.cons_append]
    exact splitLines_cons_of_ne c (cs ++ '\n' :: b) cs (splitLines b) hc (ih hcs)

theorem splitLines_joinLines (ls : List (List Char)) (hne : ls ≠ [])
    (h : ∀ l ∈ ls, '\n' ∉ l) : splitLines (joinLines ls) = ls := by
  induction ls with
  | nil => exact absurd rfl hne
  | cons l ls ih =>
    cases ls with
    | nil =>
      simp only [joinLines]
      exact splitLines_of_no_newline l (h l (List.mem_cons_self l []))
    | cons l2 ls2 =>
      rw [joinLines_cons_cons]
      rw [splitLines_append_newline _ _ (h l (List.mem_cons_self l _))]
      rw [ih (by simp) (fun x hx => h x (List.mem_cons_of_mem l hx))]

/-! ### Run lemmas -/

theorem hasRun_cons₂ (c d : Char) (rest : List Char) :
    hasRun (c :: d :: rest) = ((c = '*' && d.isDigit) || hasRun (d :: rest)) := rfl

theorem hasRun_of_tail (c : Char) (cs : List Char) (h : hasRun cs = true) :
    hasRun (c :: cs) = true := by
  cases cs with
  | nil => simp [hasRun] at h
  | cons d rest => rw [hasRun_cons₂, h, Bool.or_true]

theorem hasRun_false_tail (c : Char) (cs : List Char)
    (h : hasRun (c :: cs) = false) : hasRun cs = false := by
  cases hcs : hasRun cs with
  | false => rfl
  | true =>
    rw [hasRun_of_tail c cs hcs] at h
    exact h

theorem hasRun_shape (l : List Char) (h : hasRun l = true) :
    ∃ c d rest, l = c :: d :: rest := by
  match l with
  | [] => simp [hasRun] at h
  | [c] => simp [hasRun] at h
  | c :: d :: rest => exact ⟨c, d, rest, rfl⟩

theorem hasRun_dropDigits (l : List Char) (h : hasRun l = false) :
    hasRun (dropDigits l) = false := by
  induction l with
  | nil => exact h
  | cons c cs ih =>
    rw [dropDigits]
    split
    · exact ih (hasRun_false_tail c cs h)
    · exact h

theorem dropDigits_head_not_digit (l : List Char) :
    ∀ c, (dropDigits l).head? = some c → c.isDigit = false := by
  induction l with
  | nil => intro c hc; simp [dropDigits] at hc
  | cons x xs ih =>
    intro c hc
    rw [dropDigits] at hc
    by_cases hx : x.isDigit
    · rw [if_pos hx] at hc
      exact ih c hc
    · rw [if_neg hx] at hc
      simp only [List.head?_cons, Option.some.injEq] at hc
      subst hc
      exact Bool.eq_false_iff.mpr hx

theorem dropDigits_decompose (l : List Char) :
    ∃ a, l = a ++ dropDigits l ∧ ∀ c ∈ a, c.isDigit = true := by
  induction l with
  | nil => exact ⟨[], rfl, by simp⟩
  | cons x xs ih =>
    by_cases hx : x.isDigit
    · obtain ⟨a, ha, hd⟩ := ih
      refine ⟨x :: a, ?_, ?_⟩
      · rw [dropDigits, if_pos hx, List.cons_append, ← ha]
      · intro c hc
        rcases List.mem_cons.mp hc with rfl | hc
        · exact hx
        · exact hd c hc
    · refine ⟨[], ?_, by simp⟩
      rw [dropDigits, if_neg hx, List.nil_append]

theorem afterLastRun_cons (c : Char) (cs : List Char) :
    afterLastRun (c :: cs) =
      (match afterLastRun cs with
       | some r => some r
       | none =>
         if c = '*' then
           match cs with
           | [] => none
           | d :: _ => if d.isDigit then some (dropDigits cs) else none
         else none) := rfl

theorem afterLastRun_cons_some (c : Char) (cs r : List Char)
    (h : afterLastRun cs = some r) : afterLastRun (c :: cs) = some r := by
  rw [afterLastRun_cons, h]

theorem afterLastRun_cons_none (c : Char) (cs : List Char)
    (h : afterLastRun cs = none) :
    afterLastRun (c :: cs) =
      (if c = '*' then
        (match cs with
         | [] => none
         | d :: _ => if d.isDigit then some (dropDigits cs) else none)
       else none) := by
  rw [afterLastRun_cons, h]

theorem afterLastRun_eq_none (l : List Char) :
    afterLastRun l = none ↔ hasRun l = false := by
  induction l with
  | nil => simp [afterLastRun, hasRun]
  | cons c cs ih =>
    rw [afterLastRun_cons]
    cases hcs : afterLastRun cs with
    | some r =>
      have h1 : hasRun cs = true := by
        by_contra hf
        rw [ih.mpr (Bool.of_not_eq_true hf)] at hcs
        exact Option.noConfusion hcs
      simp only [hasRun_of_tail c cs h1]
      simp
    | none =>
      have h1 : hasRun cs = false := ih.mp hcs
      cases cs with
      | nil => simp [hasRun]
      | cons d rest =>
        rw [hasRun_cons₂, h1, Bool.or_false]
        by_cases hc : c = '*'
        · by_cases hd : d.isDigit
          · simp [hc, hd]
          · simp [hc, hd]
        · simp [hc]

theorem afterLastRun_some_spec (l r : List Char) (h : afterLastRun l = some r) :
    ∃ p, l = p ++ r ∧ hasRun p = true ∧ hasRun r = false ∧
      (∀ c, r.head? = some c → c.isDigit = false) ∧
      (∃ d, p.getLast? = some d ∧ d.isDigit = true) := by
  induction l with
  | nil => simp [afterLastRun] at h
  | cons c cs ih =>
    cases hcs : afterLastRun cs with
    | some r0 =>
      rw [afterLastRun_cons_some c cs r0 hcs] at h
      simp only [Option.some.injEq] at h
      subst h
      obtain ⟨p, hp, hrun, hr, hhead, d, hlast, hd⟩ := ih hcs
      obtain ⟨x, y, rest, hshape⟩ := hasRun_shape p hrun
      refine ⟨c :: p, by rw [hp, List.cons_append], hasRun_of_tail c p hrun,
        hr, hhead, d, ?_, hd⟩
      rw [hshape] at hlast ⊢
      rw [List.getLast?_cons_cons]
      exact hlast
    | none =>
      rw [afterLastRun_cons_none c cs hcs] at h
      have h1 : hasRun cs = false := (afterLastRun_eq_none cs).mp hcs
      by_cases hc : c = '*'
      · rw [if_pos hc] at h
        cases cs with
        | nil => exact Option.noConfusion h
        | cons d rest =>
          by_cases hd : d.isDigit
          · simp only [hd, if_true] at h
            injection h with h
            subst h
            have hdd : dropDigits (d :: rest) = dropDigits rest := by
              rw [dropDigits, if_pos hd]
            obtain ⟨a, ha, hadig⟩ := dropDigits_decompose rest
            refine ⟨c :: d :: a, ?_, ?_, ?_, dropDigits_head_not_digit _, ?_⟩
            · rw [hdd, List.cons_append, List.cons_append, ← ha]
            · rw [hasRun_cons₂, hc]
              simp [hd]
            · rw [hdd]
              exact hasRun_dropDigits rest (hasRun_false_tail d rest h1)
            · rw [List.getLast?_cons_cons]
              cases hlast : (d :: a).getLast? with
              | none => simp at hlast
              | some x =>
                refine ⟨x, rfl, ?_⟩
                have hx : x ∈ d :: a := List.mem_of_getLast?_eq_some hlast
                rcases List.mem_cons.mp hx with rfl | hx
                · exact hd
                · exact hadig x hx
          · simp [hd] at h
      · rw [if_neg hc] at h
        exact Option.noConfusion h

/-! ### Line redaction lemmas -/

theorem hasRun_append_of_no_star (a b : List Char)
    (h : ∀ c ∈ a, ¬ c = '*') : hasRun (a ++ b) = hasRun b := by
  induction a with
  | nil => rfl
  | cons c cs ih =>
    have hc : ¬ c = '*' := h c (List.mem_cons_self c cs)
    have hcs : ∀ x ∈ cs, ¬ x = '*' := fun x hx => h x (List.mem_cons_of_mem c hx)
    rw [List.cons_append]
    cases hx : cs ++ b with
    | nil =>
      have hb : b = [] := (List.append_eq_nil.mp hx).2
      subst hb
      simp [hasRun]
    | cons d rest =>
      rw [hasRun_cons₂]
      have : (c = '*' : Bool) = false := by
        simp [hc]
      rw [this, Bool.false_and, Bool.false_or, ← hx, ih hcs]

theorem no_star_REDACTED_LINE : ∀ c ∈ REDACTED_LINE, ¬ c = '*' := by decide

theorem no_newline_REDACTED_LINE : '\n' ∉ REDACTED_LINE := by decide

theorem lineRedact_of_no_run (l : List Char) (h : hasRun l = false) :
    lineRedact l = l := by
  unfold lineRedact
  rw [(afterLastRun_eq_none l).mpr h]

theorem lineRedact_of_some (l r : List Char) (h : afterLastRun l = some r) :
    lineRedact l = REDACTED_LINE ++ r := by
  unfold lineRedact
  rw [h]

theorem lineRedact_idem (l : List Char) :
    lineRedact (lineRedact l) = lineRedact l := by
  cases h : afterLastRun l with
  | none =>
    have h1 : lineRedact l = l := by unfold lineRedact; rw [h]
    rw [h1, h1]
  | some r =>
    rw [lineRedact_of_some l r h]
    obtain ⟨p, _, _, hr, _, _⟩ := afterLastRun_some_spec l r h
    apply lineRedact_of_no_run
    rw [hasRun_append_of_no_star _ _ no_star_REDACTED_LINE]
    exact hr

theorem newline_not_mem_lineRedact (l : List Char) (h : '\n' ∉ l) :
    '\n' ∉ lineRedact l := by
  cases hl : afterLastRun l with
  | none =>
    rw [lineRedact, hl]
    exact h
  | some r =>
    rw [lineRedact_of_some l r hl]
    obtain ⟨p, hp, _, _, _, _⟩ := afterLastRun_some_spec l r hl
    intro hmem
    rcases List.mem_append.mp hmem with hm | hm
    · exact no_newline_REDACTED_LINE hm
    · exact h (hp ▸ List.mem_append_right p hm)

theorem splitLines_redact_lines (t : List Char) :
    splitLines (redact_lines t) = (splitLines t).map lineRedact := by
  unfold redact_lines
  apply splitLines_joinLines
  · intro hmap
    exact splitLines_ne_nil t (List.map_eq_nil_iff.mp hmap)
  · intro l hl
    rcases List.mem_map.mp hl with ⟨l0, hl0, rfl⟩
    exact newline_not_mem_lineRedact l0 (newline_not_mem_splitLines t l0 hl0)

/-! ### Claims about the structural pass -/

/-- C8: the structural line redactor is idempotent: running `redact_lines`
on its own output changes nothing, because a rewritten line (the
placeholder followed by the preserved remainder of the line) never again
contains a mask+digit run. -/
theorem c8_redact_lines_idempotent (t : List Char) :
    redact_lines (redact_lines t) = redact_lines t := by
  conv_lhs => rw [redact_lines, splitLines_redact_lines, List.map_map]
  rw [redact_lines]
  congr 1
  apply List.map_congr_left
  intro l _
  simp only [Function.comp_apply]
  exact lineRedact_idem l

/-- C7: on a text none of whose lines contains a mask+digit run, the full
pipeline with an empty entity list returns the text unchanged. -/
theorem c7_pipeline_identity_on_clean_text (t : List Char)
    (h : ∀ l ∈ splitLines t, hasRun l = false) :
    redact_pii t [] = t := by
  have h1 : redact_lines t = t := by
    rw [redact_lines]
    calc joinLines ((splitLines t).map lineRedact)
        = joinLines ((splitLines t).map (fun l => l)) := by
          rw [List.map_congr_left (fun l hl => lineRedact_of_no_run l (h l hl))]
      _ = joinLines (splitLines t) := by rw [List.map_id']
      _ = t := joinLines_splitLines t
  show redact_entities (redact_lines t) [] = t
  rw [h1]
  rfl

/-- Witness for C7 at a concrete two-line text with no mask+digit run. -/
theorem c7_witness :
    (∀ l ∈ splitLines ("hi\nok".toList), hasRun l = false) ∧
      redact_pii ("hi\nok".toList) [] = "hi\nok".toList :=
  ⟨by decide, c7_pipeline_identity_on_clean_text ("hi\nok".toList) (by decide)⟩

/-- C2 counterexample: on the single-line text "ab**12 tail" the code
replaces only the prefix up to the digits of the mask+digit run and keeps
" tail", so a matching line is not replaced in its entirety. -/
theorem c2_counterexample :
    redact_lines ("ab**12 tail".toList) = "[REDACTED LINE] tail".toList ∧
      redact_lines ("ab**12 tail".toList) ≠ "[REDACTED LINE]".toList :=
  ⟨by decide, by decide⟩

/-- C2 (amended): the substitution is line-scoped; a line with no
mask+digit run is left unchanged, and a line with one is replaced from its
start through the digits of its last mask+digit run by "[REDACTED LINE]",
keeping the remainder of the line, which contains no further run and does
not start with a digit. -/
theorem c2_amended_line_substitution (t : List Char) :
    splitLines (redact_lines t) = (splitLines t).map lineRedact ∧
      ∀ l ∈ splitLines t,
        (hasRun l = false → lineRedact l = l) ∧
        (hasRun l = true → afterLastRun l ≠ none) ∧
        (∀ r, afterLastRun l = some r →
          lineRedact l = REDACTED_LINE ++ r ∧
          (∃ p, l = p ++ r ∧ hasRun p = true ∧
            (∃ d, p.getLast? = some d ∧ d.isDigit = true)) ∧
          hasRun r = false ∧ (∀ c, r.head? = some c → c.isDigit = false)) := by
  refine ⟨splitLines_redact_lines t, fun l _ => ⟨lineRedact_of_no_run l, ?_, ?_⟩⟩
  · intro hl hn
    rw [(afterLastRun_eq_none l).mp hn] at hl
    exact Bool.noConfusion hl
  · intro r hr
    obtain ⟨p, hp, hrun, hr0, hhead, hd⟩ := afterLastRun_some_spec l r hr
    exact ⟨lineRedact_of_some l r hr, ⟨p, hp, hrun, hd⟩, hr0, hhead⟩

/-- Witness for C2 (amended) at the concrete text "ab**12 tail". -/
theorem c2_amended_witness :
    splitLines (redact_lines ("ab**12 tail".toList)) =
      (splitLines ("ab**12 tail".toList)).map lineRedact ∧
    lineRedact ("ab**12 tail".toList) = REDACTED_LINE ++ " tail".toList :=
  ⟨(c2_amended_line_substitution ("ab**12 tail".toList)).1,
   (((c2_amended_line_substitution ("ab**12 tail".toList)).2
      ("ab**12 tail".toList) (by decide)).2.2 (" tail".toList) (by decide)).1⟩

/-! ### Entity pass lemmas -/

theorem spanChain_mono (b b' : Nat) (l : List Entity) (h : SpanChain b l)
    (hb : b ≤ b') : SpanChain b' l := by
  cases l with
  | nil => trivial
  | cons e es =>
    obtain ⟨h1, h2, h3⟩ := h
    exact ⟨h1, le_trans h2 hb, h3⟩

theorem applySpan_append (P S : List Char) (e : Entity)
    (hb : e.beginOffset ≤ P.length) (he : e.endOffset ≤ P.length) :
    applySpan (P ++ S) e = applySpan P e ++ S := by
  unfold applySpan
  rw [List.take_append_of_le_length hb, List.drop_append_of_le_length he]
  simp [List.append_assoc]

theorem length_applySpan_ge (P : List Char) (e : Entity)
    (hb : e.beginOffset ≤ P.length) :
    e.beginOffset ≤ (applySpan P e).length := by
  unfold applySpan
  rw [List.length_append, List.length_append, List.length_take]
  omega

theorem foldl_applySpan_append (S : List Char) (l : List Entity) :
    ∀ P : List Char, SpanChain P.length l →
      List.foldl applySpan (P ++ S) l = List.foldl applySpan P l ++ S := by
  induction l with
  | nil => intro P _; rfl
  | cons e es ih =>
    intro P h
    obtain ⟨h1, h2, h3⟩ := h
    rw [List.foldl_cons, List.foldl_cons,
      applySpan_append P S e (le_trans (le_of_lt h1) h2) h2]
    apply ih
    exact spanChain_mono e.beginOffset _ es h3
      (length_applySpan_ge P e (le_trans (le_of_lt h1) h2))

theorem foldl_applySpan_renderRev (l : List Entity) :
    ∀ t : List Char, SpanChain t.length l →
      List.foldl applySpan t l = renderRev t l := by
  induction l with
  | nil => intro t _; rfl
  | cons e es ih =>
    intro t h
    obtain ⟨h1, h2, h3⟩ := h
    have hb : e.beginOffset ≤ t.length := le_trans (le_of_lt h1) h2
    have hlen : (t.take e.beginOffset).length = e.beginOffset := by
      rw [List.length_take]
      exact min_eq_left hb
    have h3' : SpanChain (t.take e.beginOffset).length es := by
      rw [hlen]
      exact h3
    rw [List.foldl_cons]
    have happ : applySpan t e =
        t.take e.beginOffset ++ (placeholderFor e.type ++ t.drop e.endOffset) := by
      unfold applySpan
      rw [List.append_assoc]
    rw [happ, foldl_applySpan_append _ es _ h3', ih (t.take e.beginOffset) h3']
    simp [renderRev, List.append_assoc]

/-! ### Sort lemmas -/

theorem insertDesc_perm (x : Entity) (l : List Entity) :
    (insertDesc x l).Perm (x :: l) := by
  induction l with
  | nil => exact List.Perm.refl _
  | cons y ys ih =>
    rw [insertDesc]
    split
    · exact List.Perm.trans (List.Perm.cons y ih) (List.Perm.swap x y ys)
    · exact List.Perm.refl _

theorem sortDesc_perm (l : List Entity) : (sortDesc l).Perm l := by
  induction l with
  | nil => exact List.Perm.refl _
  | cons x xs ih =>
    rw [sortDesc]
    exact List.Perm.trans (insertDesc_perm x (sortDesc xs)) (List.Perm.cons x ih)

theorem insertDesc_sorted (x : Entity) (l : List Entity)
    (h : l.Pairwise (fun a b => b.beginOffset ≤ a.beginOffset)) :
    (insertDesc x l).Pairwise (fun a b => b.beginOffset ≤ a.beginOffset) := by
  induction l with
  | nil => simp [insertDesc]
  | cons y ys ih =>
    rw [insertDesc]
    obtain ⟨hy, hys⟩ := List.pairwise_cons.mp h
    split
    · rename_i hlt
      apply List.pairwise_cons.mpr
      refine ⟨?_, ih hys⟩
      intro z hz
      have hz1 : z ∈ x :: ys := (insertDesc_perm x ys).mem_iff.mp hz
      rcases List.mem_cons.mp hz1 with rfl | hz2
      · exact le_of_lt hlt
      · exact hy z hz2
    · rename_i hge
      push_neg at hge
      apply List.pairwise_cons.mpr
      refine ⟨?_, h⟩
      intro z hz
      rcases List.mem_cons.mp hz with rfl | hz2
      · exact hge
      · exact le_trans (hy z hz2) hge

theorem sortDesc_sorted (l : List Entity) :
    (sortDesc l).Pairwise (fun a b => b.beginOffset ≤ a.beginOffset) := by
  induction l with
  | nil => simp [sortDesc]
  | cons x xs ih =>
    rw [sortDesc]
    exact insertDesc_sorted x (sortDesc xs) ih

theorem insertDesc_filter_beginEq (x : Entity) (l : List Entity) (k : Nat) :
    (insertDesc x l).filter (fun e => e.beginOffset = k) =
      (if x.beginOffset = k then [x] else []) ++
        l.filter (fun e => e.beginOffset = k) := by
  induction l with
  | nil =>
    by_cases hx : x.beginOffset = k <;> simp [insertDesc, hx]
  | cons y ys ih =>
    rw [insertDesc]
    split
    · rename_i hlt
      by_cases hy : y.beginOffset = k
      · have hx : ¬ x.beginOffset = k := by omega
        simp [List.filter_cons, hy, hx, ih]
      · simp [List.filter_cons, hy, ih]
    · by_cases hx : x.beginOffset = k <;> simp [List.filter_cons, hx]

theorem sortDesc_filter_beginEq (l : List Entity) (k : Nat) :
    (sortDesc l).filter (fun e => e.beginOffset = k) =
      l.filter (fun e => e.beginOffset = k) := by
  induction l with
  | nil => rfl
  | cons x xs ih =>
    rw [sortDesc, insertDesc_filter_beginEq, ih, List.filter_cons]
    by_cases hx : x.beginOffset = k
    · simp [hx]
    · simp [hx]

theorem spanChain_of_sorted (l : List Entity) :
    ∀ B : Nat, l.Pairwise (fun a b => b.beginOffset ≤ a.beginOffset) →
      l.Pairwise SpanDisjoint →
      (∀ e ∈ l, e.beginOffset < e.endOffset) →
      (∀ e ∈ l, e.endOffset ≤ B) → SpanChain B l := by
  induction l with
  | nil => intro B _ _ _ _; trivial
  | cons e es ih =>
    intro B hsort hdisj hne hB
    obtain ⟨hs1, hs2⟩ := List.pairwise_cons.mp hsort
    obtain ⟨hd1, hd2⟩ := List.pairwise_cons.mp hdisj
    refine ⟨hne e (List.mem_cons_self e es), hB e (List.mem_cons_self e es), ?_⟩
    apply ih e.beginOffset hs2 hd2 (fun x hx => hne x (List.mem_cons_of_mem e hx))
    intro x hx
    rcases hd1 x hx with h | h
    · exfalso
      have hxb : x.beginOffset ≤ e.beginOffset := hs1 x hx
      have h2 : e.beginOffset < e.beginOffset :=
        lt_of_lt_of_le (hne e (List.mem_cons_self e es)) (le_trans h hxb)
      exact absurd h2 (lt_irrefl _)
    · exact h

/-! ### Claims about the entity pass -/

/-- C3 counterexample: over "xxxxx", the empty span A = [2,2) and the span
B = [2,5) are individually valid (begin ≤ end ≤ length) and non-overlapping
as half-open ranges, yet the stable tie on the equal begin offsets makes
the second substitution consume part of the first placeholder: the output
is neither of the two layouts with one intact placeholder per span
standing at offset 2 and the non-spanned text "xx" kept verbatim. -/
theorem c3_counterexample :
    (∀ e ∈ [Entity.mk "A".toList 2 2, Entity.mk "B".toList 2 5],
      e.beginOffset ≤ e.endOffset ∧ e.endOffset ≤ ("xxxxx".toList).length) ∧
    List.Pairwise SpanDisjoint [Entity.mk "A".toList 2 2, Entity.mk "B".toList 2 5] ∧
    redact_entities "xxxxx".toList
        [Entity.mk "A".toList 2 2, Entity.mk "B".toList 2 5] =
      "xx[REDACTED B]DACTED A]xxx".toList ∧
    redact_entities "xxxxx".toList
        [Entity.mk "A".toList 2 2, Entity.mk "B".toList 2 5] ≠
      ("xx".toList ++ placeholderFor "A".toList ++ placeholderFor "B".toList) ∧
    redact_entities "xxxxx".toList
        [Entity.mk "A".toList 2 2, Entity.mk "B".toList 2 5] ≠
      ("xx".toList ++ placeholderFor "B".toList ++ placeholderFor "A".toList) :=
  ⟨by decide, by decide, by decide, by decide, by decide⟩

/-- C3 (amended): for pairwise non-overlapping, individually valid and
non-empty spans (begin < end), the entity pass produces the rendering with
exactly one placeholder per surviving span, each standing where the span
range was, and all characters outside the spans kept verbatim in order
(the `renderRev` of the descending-sorted spans, a permutation of the
input). -/
theorem c3_amended_placeholders_in_place (t : List Char) (es : List Entity)
    (hval : ∀ e ∈ es, e.beginOffset < e.endOffset ∧ e.endOffset ≤ t.length)
    (hdisj : es.Pairwise SpanDisjoint) :
    (sortDesc es).Perm es ∧
      redact_entities t es = renderRev t (sortDesc es) := by
  refine ⟨sortDesc_perm es, ?_⟩
  cases es with
  | nil => rfl
  | cons e0 es0 =>
    rw [redact_entities, if_neg (by simp)]
    apply foldl_applySpan_renderRev
    apply spanChain_of_sorted _ _ (sortDesc_sorted (e0 :: es0))
    · have hsym : ∀ {a b : Entity}, SpanDisjoint a b → SpanDisjoint b a :=
        fun h => h.elim Or.inr Or.inl
      exact ((sortDesc_perm (e0 :: es0)).pairwise_iff fun h => hsym h).mpr hdisj
    · intro e he
      exact (hval e ((sortDesc_perm (e0 :: es0)).mem_iff.mp he)).1
    · intro e he
      exact (hval e ((sortDesc_perm (e0 :: es0)).mem_iff.mp he)).2

/-- Witness for C3 (amended) on "AAA BBB CCC" with spans X = [0,3) and
Y = [8,11). -/
theorem c3_witness :
    redact_entities "AAA BBB CCC".toList
        [Entity.mk "X".toList 0 3, Entity.mk "Y".toList 8 11] =
      renderRev "AAA BBB CCC".toList
        (sortDesc [Entity.mk "X".toList 0 3, Entity.mk "Y".toList 8 11]) :=
  (c3_amended_placeholders_in_place "AAA BBB CCC".toList
    [Entity.mk "X".toList 0 3, Entity.mk "Y".toList 8 11]
    (by decide) (by decide)).2

theorem sortDesc_strict_of_ne (es : List Entity)
    (hne : es.Pairwise (fun a b => a.beginOffset ≠ b.beginOffset)) :
    (sortDesc es).Pairwise SGtB := by
  have h1 : (sortDesc es).Pairwise (fun a b => b.beginOffset ≤ a.beginOffset) :=
    sortDesc_sorted es
  have h2 : (sortDesc es).Pairwise (fun a b => a.beginOffset ≠ b.beginOffset) :=
    ((sortDesc_perm es).pairwise_iff fun h => Ne.symm h).mpr hne
  exact (h1.and h2).imp fun hab => lt_of_le_of_ne hab.1 (Ne.symm hab.2)

/-- C9 counterexample: the empty span P = [2,2) and the span Q = [2,5) over
"yyyyy" are individually valid and non-overlapping as half-open ranges, yet
swapping their list order changes the output, because the stable tie on
equal begins makes the processing order follow the input order. -/
theorem c9_counterexample :
    (∀ e ∈ [Entity.mk "P".toList 2 2, Entity.mk "Q".toList 2 5],
      e.beginOffset ≤ e.endOffset ∧ e.endOffset ≤ ("yyyyy".toList).length) ∧
    List.Pairwise SpanDisjoint
      [Entity.mk "P".toList 2 2, Entity.mk "Q".toList 2 5] ∧
    List.Perm [Entity.mk "P".toList 2 2, Entity.mk "Q".toList 2 5]
      [Entity.mk "Q".toList 2 5, Entity.mk "P".toList 2 2] ∧
    redact_entities "yyyyy".toList
        [Entity.mk "P".toList 2 2, Entity.mk "Q".toList 2 5] ≠
      redact_entities "yyyyy".toList
        [Entity.mk "Q".toList 2 5, Entity.mk "P".toList 2 2] :=
  ⟨by decide, by decide, by decide, by decide⟩

/-- C9 (amended): for valid, non-empty (begin < end), pairwise
non-overlapping spans, the output depends only on the set of spans: any
permutation of the input list redacts identically (begin offsets are then
pairwise distinct, so the descending sort is unique). -/
theorem c9_amended_input_order_independence (t : List Char)
    (es es2 : List Entity) (hperm : es.Perm es2)
    (hval : ∀ e ∈ es, e.beginOffset < e.endOffset ∧ e.endOffset ≤ t.length)
    (hdisj : es.Pairwise SpanDisjoint) :
    redact_entities t es = redact_entities t es2 := by
  have hne : es.Pairwise (fun a b => a.beginOffset ≠ b.beginOffset) := by
    refine hdisj.imp_of_mem ?_
    intro a b ha hb hab
    have h1 := (hval a ha).1
    have h2 := (hval b hb).1
    rcases hab with h | h
    · omega
    · omega
  have hne2 : es2.Pairwise (fun a b => a.beginOffset ≠ b.beginOffset) :=
    (hperm.pairwise_iff fun h => Ne.symm h).mp hne
  have heq : sortDesc es = sortDesc es2 :=
    List.eq_of_perm_of_sorted
      (((sortDesc_perm es).trans hperm).trans (sortDesc_perm es2).symm)
      (sortDesc_strict_of_ne es hne) (sortDesc_strict_of_ne es2 hne2)
  cases es with
  | nil =>
    have h0 : es2 = [] := hperm.symm.eq_nil
    subst h0
    rfl
  | cons a as =>
    cases es2 with
    | nil => exact absurd hperm.eq_nil (by simp)
    | cons b bs =>
      rw [redact_entities, redact_entities, if_neg (by simp), if_neg (by simp),
        heq]

/-- Witness for C9 (amended): swapping two disjoint non-empty spans over
"AAA BBB CCC" leaves the output unchanged. -/
theorem c9_witness :
    redact_entities "AAA BBB CCC".toList
        [Entity.mk "K".toList 0 3, Entity.mk "L".toList 8 11] =
      redact_entities "AAA BBB CCC".toList
        [Entity.mk "L".toList 8 11, Entity.mk "K".toList 0 3] :=
  c9_amended_input_order_independence "AAA BBB CCC".toList
    [Entity.mk "K".toList 0 3, Entity.mk "L".toList 8 11]
    [Entity.mk "L".toList 8 11, Entity.mk "K".toList 0 3]
    (by decide) (by decide) (by decide)

/-- C5 counterexample: for two spans with equal begin offsets, the code
does not process the broader span first: Python sorts only on
`BeginOffset` with a stable sort, so the tie keeps the input order
(narrow span A = [0,1) listed before broad span B = [0,2) is processed
first), and the output differs from applying the spans in the order
sorted by begin descending with ties broken by end descending. -/
theorem c5_counterexample :
    redact_entities "xy".toList
        [Entity.mk "A".toList 0 1, Entity.mk "B".toList 0 2] =
      "[REDACTED B]EDACTED A]y".toList ∧
    (sortSpecOrder [Entity.mk "A".toList 0 1, Entity.mk "B".toList 0 2]).foldl
        applySpan "xy".toList =
      "[REDACTED A]REDACTED B]".toList ∧
    redact_entities "xy".toList
        [Entity.mk "A".toList 0 1, Entity.mk "B".toList 0 2] ≠
      (sortSpecOrder [Entity.mk "A".toList 0 1, Entity.mk "B".toList 0 2]).foldl
        applySpan "xy".toList :=
  ⟨by decide, by decide, by decide⟩

/-- C5 (amended): the spans are applied in the order given by sorting on
begin descending with ties on equal begin keeping the original list order
(Python sorts are stable): the applied order is a permutation of the
input, its begin offsets are descending, and for every begin offset the
spans carrying it appear in their original relative order. -/
theorem c5_amended_stable_descending_order (t : List Char)
    (es : List Entity) :
    (es.isEmpty = false →
      redact_entities t es = (sortDesc es).foldl applySpan t) ∧
    (sortDesc es).Perm es ∧
    (sortDesc es).Pairwise (fun a b => b.beginOffset ≤ a.beginOffset) ∧
    (∀ k, (sortDesc es).filter (fun e => e.beginOffset = k) =
      es.filter (fun e => e.beginOffset = k)) := by
  refine ⟨?_, sortDesc_perm es, sortDesc_sorted es,
    fun k => sortDesc_filter_beginEq es k⟩
  intro h
  rw [redact_entities, if_neg (by simp [h])]

/-- Witness for C5 (amended) on a two-span list with a begin tie. -/
theorem c5_witness :
    redact_entities "xy".toList
        [Entity.mk "C".toList 0 1, Entity.mk "D".toList 0 2] =
      (sortDesc [Entity.mk "C".toList 0 1, Entity.mk "D".toList 0 2]).foldl
        applySpan "xy".toList :=
  (c5_amended_stable_descending_order "xy".toList
    [Entity.mk "C".toList 0 1, Entity.mk "D".toList 0 2]).1 (by decide)

/-- C4 counterexample: a span with begin = 10 > end = 5 raises nothing:
the code returns a complete output in which the characters at [5,10) of
the text appear twice, once inside the kept prefix `text[:10]` and once in
the kept suffix `text[5:]`. -/
theorem c4_counterexample :
    redact_entities "0123456789ABC".toList [Entity.mk "NAME".toList 10 5] =
      "0123456789[REDACTED NAME]56789ABC".toList :=
  by decide

/-- C4 (amended): a span with begin ≥ end is not rejected: the entity pass
totally computes `text[:begin] + placeholder + text[end:]`, which keeps
the characters at [end, begin) twice — once at the end of the kept prefix
and once at the start of the kept suffix — instead of surfacing an
`InvalidSpanError` (no such error exists in the code). -/
theorem c4_amended_inverted_span_duplicates (t : List Char) (e : Entity)
    (hb : e.endOffset ≤ e.beginOffset) :
    redact_entities t [e] =
      t.take e.endOffset ++
        (t.drop e.endOffset).take (e.beginOffset - e.endOffset) ++
        placeholderFor e.type ++
        ((t.drop e.endOffset).take (e.beginOffset - e.endOffset) ++
          t.drop e.beginOffset) := by
  show applySpan t e = _
  have h1 : t.take e.beginOffset =
      t.take e.endOffset ++ (t.drop e.endOffset).take (e.beginOffset - e.endOffset) := by
    conv_lhs =>
      rw [show e.beginOffset = e.endOffset + (e.beginOffset - e.endOffset) by omega]
    exact List.take_add t e.endOffset (e.beginOffset - e.endOffset)
  have h2 : t.drop e.endOffset =
      (t.drop e.endOffset).take (e.beginOffset - e.endOffset) ++ t.drop e.beginOffset := by
    conv_lhs =>
      rw [← List.take_append_drop (e.beginOffset - e.endOffset) (t.drop e.endOffset)]
    rw [List.drop_drop,
      show e.endOffset + (e.beginOffset - e.endOffset) = e.beginOffset by omega]
  rw [applySpan, ← h2, ← h1]

/-- Witness for C4 (amended) at begin = 10, end = 5 over a 13-character
text. -/
theorem c4_witness :
    redact_entities "0123456789ABC".toList [Entity.mk "PIN".toList 10 5] =
      ("0123456789ABC".toList).take 5 ++
        (("0123456789ABC".toList).drop 5).take 5 ++
        placeholderFor "PIN".toList ++
        ((("0123456789ABC".toList).drop 5).take 5 ++
          ("0123456789ABC".toList).drop 10) :=
  c4_amended_inverted_span_duplicates "0123456789ABC".toList
    (Entity.mk "PIN".toList 10 5) (by decide)

/-- C10: the redaction is total: every call returns a string, the entity
pass is exactly a fold of the substitution step over the descending-sorted
list (no validation and no exception path exists), and each substitution
step clamps out-of-range offsets exactly as Python slicing does — a begin
beyond the length keeps the whole text, an end beyond the length keeps an
empty suffix. -/
theorem c10_totality_and_clamping (t : List Char) (es : List Entity)
    (e : Entity) :
    redact_pii t es = (sortDesc es).foldl applySpan (redact_lines t) ∧
    applySpan t e =
      t.take (min e.beginOffset t.length) ++ placeholderFor e.type ++
        t.drop (min e.endOffset t.length) := by
  constructor
  · cases es with
    | nil => rfl
    | cons a as =>
      rw [redact_pii, redact_entities, if_neg (by simp)]
  · have ht : t.take e.beginOffset = t.take (min e.beginOffset t.length) := by
      rcases le_total e.beginOffset t.length with h | h
      · rw [min_eq_left h]
      · rw [min_eq_right h, List.take_of_length_le h, List.take_length]
    have hd : t.drop e.endOffset = t.drop (min e.endOffset t.length) := by
      rcases le_total e.endOffset t.length with h | h
      · rw [min_eq_left h]
      · rw [min_eq_right h, List.drop_eq_nil_of_le h, List.drop_length]
    rw [applySpan, ht, hd]

/-- C1 counterexample: the entity span [4,8) annotates "John" in the
original text, but the structural pass rewrites the first line and changes
the length, so over the rewritten text the same offsets cover "ACTE"
inside the placeholder: the substitution does not replace the annotated
content ("John" survives in the output). -/
theorem c1_counterexample :
    redact_pii "**1\nJohn".toList [Entity.mk "NAME".toList 4 8] =
      "[RED[REDACTED NAME]D LINE]\nJohn".toList ∧
    ((redact_lines "**1\nJohn".toList).drop 4).take 4 ≠
      (("**1\nJohn".toList).drop 4).take 4 :=
  ⟨by decide, by decide⟩

/-- C1 (amended): the entity substitution at [begin, end) replaces exactly
the originally annotated content only when the structural pass leaves the
text unchanged (as when no line holds a mask+digit run): then the output
is text[:begin] + placeholder + text[end:] and the removed part is the
annotated text[begin:end]. When the structural pass changes the text
length before the span, the unadjusted offsets address different content
(see the counterexample). -/
theorem c1_amended_alignment_requires_unchanged_text (t : List Char)
    (e : Entity) (hL : redact_lines t = t)
    (hbe : e.beginOffset ≤ e.endOffset) (_het : e.endOffset ≤ t.length) :
    redact_pii t [e] =
      t.take e.beginOffset ++ placeholderFor e.type ++ t.drop e.endOffset ∧
    t.take e.beginOffset ++
        (t.drop e.beginOffset).take (e.endOffset - e.beginOffset) ++
        t.drop e.endOffset = t := by
  constructor
  · show redact_entities (redact_lines t) [e] = _
    rw [hL]
    rfl
  · have h1 : t.take e.endOffset =
        t.take e.beginOffset ++
          (t.drop e.beginOffset).take (e.endOffset - e.beginOffset) := by
      conv_lhs =>
        rw [show e.endOffset = e.beginOffset + (e.endOffset - e.beginOffset) by
          omega]
      exact List.take_add t e.beginOffset (e.endOffset - e.beginOffset)
    rw [← h1, List.take_append_drop]

/-- Witness for C1 (amended) on "Hello John Doe" (no mask+digit line) with
the span [6,10) over "John". -/
theorem c1_witness :
    redact_pii "Hello John Doe".toList [Entity.mk "NAME".toList 6 10] =
      ("Hello John Doe".toList).take 6 ++ placeholderFor "NAME".toList ++
        ("Hello John Doe".toList).drop 10 :=
  (c1_amended_alignment_requires_unchanged_text "Hello John Doe".toList
    (Entity.mk "NAME".toList 6 10) (by decide) (by decide) (by decide)).1

/-- C6: the detector filter keeps exactly the entities whose kind differs
from "IP_ADDRESS" in their original order, it is idempotent, and redacting
its output equals redacting a list from which the excluded spans were
never present at all (filtering such a list is the identity). -/
theorem c6_exclusion_filter (t : List Char) (es : List Entity) :
    detect_pii_filter es = es.filter (fun e => e.type ≠ ipKind) ∧
    (∀ e, e ∈ detect_pii_filter es ↔ e ∈ es ∧ e.type ≠ ipKind) ∧
    detect_pii_filter (detect_pii_filter es) = detect_pii_filter es ∧
    redact_pii t (detect_pii_filter es) =
      redact_pii t (detect_pii_filter (detect_pii_filter es)) := by
  have hgen : ∀ l : List Entity,
      detect_pii_filter l = l.filter (fun e => e.type ≠ ipKind) := by
    intro l
    induction l with
    | nil => rfl
    | cons a as ih =>
      rw [detect_pii_filter, List.filter_cons]
      by_cases ha : a.type = ipKind
      · simp [ha, ih]
      · simp [ha, ih]
  have hidem : detect_pii_filter (detect_pii_filter es) = detect_pii_filter es := by
    rw [hgen es, hgen (es.filter (fun e => e.type ≠ ipKind)), List.filter_filter]
    simp
  refine ⟨hgen es, ?_, hidem, by rw [hidem]⟩
  intro e
  rw [hgen es, List.mem_filter]
  simp
